import Mathlib

/-!
# Verification of the concert-scraper core (normalizer, Event entity, merge engine)

Shallow embedding of `src/concert_scraper/models.py` (`_normalize`, `Event` and its
computed properties) and `src/concert_scraper/merge.py` (`merge_multiday_events`,
`_merge_consecutive_runs`, `_flush_run`).

Modelling conventions:
* a `datetime.date` is a `Nat`: the number of days since 1970-01-01 (so `+ timedelta(days=1)`
  is `+ 1` and `<=` on dates is `<=` on `Nat`); `isoformat` renders it through the proleptic
  Gregorian calendar exactly as Python's `date.isoformat()` does;
* a `datetime.time` is an hour/minute pair (all times appearing in the spec and the
  repository are minute-resolution); a `datetime.datetime` is an `Int` counting minutes
  since 1970-01-01T00:00, so `datetime.combine(d, t)` is `d * 1440 + t` and
  `timedelta(days=1)` is `1440`;
* Python strings are Lean `String`s; `str.lower()` is modelled on the ASCII range
  (`Char.toLower`), and the `\s` class of `re` as the six ASCII whitespace characters;
* pydantic construction of an `Event` is modelled by `mkEvent` over a record of
  per-field raw states (missing / present-but-unparseable / parsed value), following
  pydantic's semantics for the annotations in the `Event` class: a required field that
  is missing fails, any present field that does not parse fails, optional fields
  default when missing. There is no constraint on the *content* of parsed values
  (in particular no emptiness check on strings and no `end_date >= date` check),
  because the `Event` class declares none.
-/

namespace ConcertScraper

/-! ## The normalizer (`_normalize` in `models.py`) -/

/-- Python's `\s` character class, restricted to the ASCII range
(space, tab, newline, carriage return, vertical tab, form feed). -/
def isSpace (c : Char) : Bool :=
  c == ' ' || c == '\t' || c == '\n' || c == '\r' || c == '\x0b' || c == '\x0c'

/-- A character untouched by the normalizer's character filter:
a lowercase ASCII letter or an ASCII digit (the class `[a-z0-9]`). -/
def isGood (c : Char) : Bool :=
  (97 ≤ c.toNat && c.toNat ≤ 122) || (48 ≤ c.toNat && c.toNat ≤ 57)

/-- The characters surviving `re.sub(r"[^a-z0-9\s]", "", t)`. -/
def isKeep (c : Char) : Bool := isGood c || isSpace c

/-- `re.sub(r"^the\s+", "", t)`: remove a leading `the` followed by a (greedy,
nonempty) whitespace run; anchored, so at most one removal. -/
def stripThe : List Char → List Char
  | 't' :: 'h' :: 'e' :: c :: rest =>
    if isSpace c then (c :: rest).dropWhile isSpace else 't' :: 'h' :: 'e' :: c :: rest
  | l => l

/-- `re.sub(r"\s+", " ", t)`: replace each maximal whitespace run by a single
space. The flag `sp` records whether the previous character was whitespace. -/
def squeeze1 (sp : Bool) : List Char → List Char
  | [] => []
  | c :: rest =>
    if isSpace c then
      if sp then squeeze1 true rest else ' ' :: squeeze1 true rest
    else c :: squeeze1 false rest

/-- Python `str.strip()` (ASCII whitespace): drop whitespace from both ends. -/
def stripEnds (l : List Char) : List Char :=
  ((l.dropWhile isSpace).reverse.dropWhile isSpace).reverse

/-- `_normalize` from `models.py`: lowercase and strip, drop one leading
`the `, remove every character outside `[a-z0-9\s]`, collapse whitespace
runs to single spaces, strip. -/
def _normalize (s : String) : String :=
  ⟨stripEnds (squeeze1 false (List.filter isKeep (stripThe (stripEnds (s.data.map Char.toLower)))))⟩

/-! ## Calendar rendering (`date.isoformat()`) -/

/-- Decimal digit character of `n % 10`. -/
def digitCh (n : Nat) : Char :=
  match n % 10 with
  | 0 => '0' | 1 => '1' | 2 => '2' | 3 => '3' | 4 => '4'
  | 5 => '5' | 6 => '6' | 7 => '7' | 8 => '8' | _ => '9'

/-- Two-digit zero-padded decimal rendering (months and days). -/
def pad2 (n : Nat) : List Char := [digitCh (n / 10), digitCh n]

/-- Four-digit zero-padded decimal rendering (years). -/
def pad4 (n : Nat) : List Char :=
  [digitCh (n / 1000), digitCh (n / 100), digitCh (n / 10), digitCh n]

/-- Convert a day count since 1970-01-01 into (year, month, day) of the
proleptic Gregorian calendar (the standard era-based civil-date algorithm). -/
def civilFromDays (z0 : Nat) : Nat × Nat × Nat :=
  let z := z0 + 719468
  let era := z / 146097
  let doe := z % 146097
  let yoe := (doe - doe / 1460 + doe / 36524 - doe / 146096) / 365
  let y := yoe + era * 400
  let doy := doe - (365 * yoe + yoe / 4 - yoe / 100)
  let mp := (5 * doy + 2) / 153
  let d := doy - (153 * mp + 2) / 5 + 1
  let m := if mp < 10 then mp + 3 else mp - 9
  (if m ≤ 2 then y + 1 else y, m, d)

/-- Python `date.isoformat()`: `YYYY-MM-DD`. -/
def isoformat (d : Nat) : String :=
  let c := civilFromDays d
  ⟨pad4 c.1 ++ '-' :: (pad2 c.2.1 ++ '-' :: pad2 c.2.2)⟩

/-! ## The `Event` entity (`models.py`) -/

/-- A `datetime.time` at minute resolution. -/
structure Time where
  hour : Fin 24
  minute : Fin 60
deriving DecidableEq

/-- Minutes since midnight. -/
def Time.toMin (t : Time) : Nat := t.hour.val * 60 + t.minute.val

/-- The `Event` pydantic model of `models.py`: one concert/event extracted
from a venue page. Dates are day counts, times are `Time`, datetimes `Int`
minutes (see the module docstring). -/
structure Event where
  title : String
  date : Nat
  end_date : Option Nat := none
  doors_time : Option Time := none
  show_time : Option Time := none
  end_time : Option Time := none
  artists : List String := []
  price : Option String := none
  ticket_url : Option String := none
  description : Option String := none
  venue_name : String
  venue_location : Option String := none
  default_duration_hours : Int := 3
deriving DecidableEq

/-- `datetime.combine(d, t)` in minutes since the epoch. -/
def combine (d : Nat) (t : Time) : Int := (d : Int) * 1440 + (t.toMin : Int)

/-- `.time()` of a datetime: its minutes-since-midnight component. -/
def timeOfDay (dt : Int) : Int := dt % 1440

/-- `Event.start_datetime`: `date` combined with `show_time` if present, else
`doors_time` if present, else 20:00. (`datetime.time` objects are always
truthy in Python ≥ 3.5, so `if self.show_time:` is a `None` check.) -/
def Event.start_datetime (e : Event) : Int :=
  let t := match e.show_time with
    | some t => t
    | none => match e.doors_time with
      | some t => t
      | none => ⟨20, 0⟩
  combine e.date t

/-- `Event.end_datetime`: the end time placed on the last day (`end_date or date`),
rolled forward by one day when it does not exceed the start time-of-day placed on
that same day; without an `end_time`, the start time-of-day on the last day plus
`default_duration_hours`. -/
def Event.end_datetime (e : Event) : Int :=
  let last_day := e.end_date.getD e.date
  match e.end_time with
  | some t =>
    let endv := combine last_day t
    if endv ≤ (last_day : Int) * 1440 + timeOfDay e.start_datetime then endv + 1440
    else endv
  | none => (last_day : Int) * 1440 + timeOfDay e.start_datetime + e.default_duration_hours * 60

/-- `Event.normalized_key`: `venue|date_or_range|normalized_title`, the date
portion being `date..end_date` when `end_date` is set and differs from `date`. -/
def Event.normalized_key (e : Event) : String :=
  let date_part :=
    match e.end_date with
    | some ed => if ed ≠ e.date then isoformat e.date ++ ".." ++ isoformat ed else isoformat e.date
    | none => isoformat e.date
  e.venue_name ++ "|" ++ date_part ++ "|" ++ _normalize e.title

/-- The days visited by the `while d <= last` loop of `covered_day_keys`,
counting upward from `d`; the loop body runs `last + 1 - d` times. -/
def daysLoop (d : Nat) : Nat → List Nat
  | 0 => []
  | n + 1 => d :: daysLoop (d + 1) n

/-- `Event.covered_day_keys`: one single-day-style key per calendar day from
`date` to `end_date or date` inclusive. -/
def Event.covered_day_keys (e : Event) : List String :=
  let last := e.end_date.getD e.date
  (daysLoop e.date (last + 1 - e.date)).map
    (fun d => e.venue_name ++ "|" ++ isoformat d ++ "|" ++ _normalize e.title)

/-! ## The merge engine (`merge.py`) -/

/-- The grouping key of `merge_multiday_events`: `(venue_name, _normalize(title))`. -/
def groupKey (e : Event) : String × String := (e.venue_name, _normalize e.title)

/-- One step of building the insertion-ordered `defaultdict(list)` grouping:
append `e` to its group if present, else add a new group at the end. -/
def addToGroups (gs : List ((String × String) × List Event)) (e : Event) :
    List ((String × String) × List Event) :=
  match gs with
  | [] => [(groupKey e, [e])]
  | (k, es) :: rest =>
    if k = groupKey e then (k, es ++ [e]) :: rest else (k, es) :: addToGroups rest e

/-- Group events by `(venue_name, normalized title)`, preserving both key
insertion order and within-group order, as a Python `defaultdict` does. -/
def groupEvents (events : List Event) : List ((String × String) × List Event) :=
  events.foldl addToGroups []

/-- The comparison of `sorted(group_events, key=lambda e: e.date)`. -/
def dateLe (a b : Event) : Bool := a.date ≤ b.date

/-- The comparison of the final `result.sort(key=lambda e: (e.date, e.venue_name, e.title))`:
lexicographic on the triple, Python string order being code-point order. -/
def outLe (a b : Event) : Bool :=
  a.date < b.date ||
    (a.date == b.date &&
      (decide (a.venue_name < b.venue_name) ||
        (a.venue_name == b.venue_name && (decide (a.title < b.title) || a.title == b.title))))

/-- `_flush_run`: a single-day run passes through unchanged; a longer run
becomes a copy of its first event with `end_date` and `end_time` taken from
the last event (`model_copy(update=...)`). -/
def _flush_run (first last : Event) : Event :=
  if first.date = last.date then first
  else { first with end_date := some last.date, end_time := last.end_time }

/-- The loop of `_merge_consecutive_runs`: `run_start`/`run_end` bound the
current run; an event whose date is exactly `run_end.date + 1` extends the
run, anything else flushes it and starts a new one; the final run is flushed
at the end. -/
def mergeRunsAux (run_start run_end : Event) : List Event → List Event
  | [] => [_flush_run run_start run_end]
  | e :: rest =>
    if e.date = run_end.date + 1 then mergeRunsAux run_start e rest
    else _flush_run run_start run_end :: mergeRunsAux e e rest

/-- `_merge_consecutive_runs`: merge consecutive-date runs of a date-sorted
same-(venue, normalized-title) group. -/
def _merge_consecutive_runs : List Event → List Event
  | [] => []
  | e :: rest => mergeRunsAux e e rest

/-- `merge_multiday_events`: group by `(venue_name, normalized title)`, sort each
group by date (stably), merge consecutive runs, concatenate in group insertion
order, and stably sort the result by `(date, venue_name, title)`. -/
def merge_multiday_events (events : List Event) : List Event :=
  let gs := groupEvents events
  let result := gs.flatMap (fun g => _merge_consecutive_runs (g.2.mergeSort dateLe))
  result.mergeSort outLe

/-! ## Construction-time validation (pydantic model of the `Event` class) -/

/-- The state of one raw input field before validation: absent, present but
not parseable into the annotated type, or parsed to a value. -/
inductive Field (α : Type) where
  | missing
  | malformed
  | val (a : α)
deriving DecidableEq

/-- Validation of a required field (`title`, `date`, `venue_name`): missing
and unparseable both fail. -/
def reqField : Field α → Except String α
  | .val a => .ok a
  | .missing => .error "field required"
  | .malformed => .error "value is not parseable"

/-- Validation of an `Optional[...] = None` field: missing defaults to `none`,
unparseable fails. -/
def optField : Field α → Except String (Option α)
  | .val a => .ok (some a)
  | .missing => .ok none
  | .malformed => .error "value is not parseable"

/-- Validation of a field with a non-`None` default: missing takes the
default, unparseable fails. -/
def defField (d : α) : Field α → Except String α
  | .val a => .ok a
  | .missing => .ok d
  | .malformed => .error "value is not parseable"

/-- The raw input record handed to `Event(...)` (one `Field` per declared field). -/
structure RawEvent where
  title : Field String := .missing
  date : Field Nat := .missing
  end_date : Field Nat := .missing
  doors_time : Field Time := .missing
  show_time : Field Time := .missing
  end_time : Field Time := .missing
  artists : Field (List String) := .missing
  price : Field String := .missing
  ticket_url : Field String := .missing
  description : Field String := .missing
  venue_name : Field String := .missing
  venue_location : Field String := .missing
  default_duration_hours : Field Int := .missing

/-- pydantic construction of an `Event` from raw input: every field is
validated against its annotation in the `Event` class; any failure is a
`ValidationError`. No further constraints are declared in the class, so no
emptiness check on strings and no relation between `end_date` and `date`. -/
def mkEvent (r : RawEvent) : Except String Event := do
  let title ← reqField r.title
  let date ← reqField r.date
  let end_date ← optField r.end_date
  let doors_time ← optField r.doors_time
  let show_time ← optField r.show_time
  let end_time ← optField r.end_time
  let artists ← defField [] r.artists
  let price ← optField r.price
  let ticket_url ← optField r.ticket_url
  let description ← optField r.description
  let venue_name ← reqField r.venue_name
  let venue_location ← optField r.venue_location
  let default_duration_hours ← defField 3 r.default_duration_hours
  pure { title := title, date := date, end_date := end_date, doors_time := doors_time,
         show_time := show_time, end_time := end_time, artists := artists, price := price,
         ticket_url := ticket_url, description := description, venue_name := venue_name,
         venue_location := venue_location, default_duration_hours := default_duration_hours }

/-- Whether construction succeeded (no `ValidationError`). -/
def isSuccess : Except String Event → Bool
  | .ok _ => true
  | .error _ => false

end ConcertScraper

namespace ConcertScraper

/-! ## Helper definitions and lemmas for the datetime claims -/

/-- The time-of-day selected by `start_datetime`: `show_time`, else `doors_time`,
else 20:00. -/
def startT (e : Event) : Time :=
  match e.show_time with
  | some t => t
  | none => match e.doors_time with
    | some t => t
    | none => ⟨20, 0⟩

theorem start_datetime_eq (e : Event) : e.start_datetime = combine e.date (startT e) := rfl

theorem Time.toMin_lt (t : Time) : t.toMin < 1440 := by
  have h1 := t.hour.isLt
  have h2 := t.minute.isLt
  unfold Time.toMin
  omega

theorem timeOfDay_combine (d : Nat) (t : Time) : timeOfDay (combine d t) = (t.toMin : Int) := by
  have h := t.toMin_lt
  unfold timeOfDay combine
  omega

/-- The start time-of-day in the spec's wording of `end_datetime`
("the start time-of-day on the last day"). -/
def startTimeOfDaySpec (e : Event) : Int := ((startT e).toMin : Int)

/-- `end_datetime` as the spec words it: with an `end_time`, combine it with the
last day (`end_date`, or `date` if absent) and add 24 hours when that instant is
at most the start time-of-day placed on the last day; without an `end_time`, the
last day at the start time-of-day plus `default_duration_hours`. -/
def endDatetimeSpec (e : Event) : Int :=
  let lastDay := e.end_date.getD e.date
  match e.end_time with
  | some t =>
    let inst := combine lastDay t
    if inst ≤ (lastDay : Int) * 1440 + startTimeOfDaySpec e then inst + 24 * 60 else inst
  | none => (lastDay : Int) * 1440 + startTimeOfDaySpec e + e.default_duration_hours * 60

/-- **C9.** `merge_multiday_events` on the empty input returns the empty output;
being a total Lean function over well-formed `Event` lists, the embedded merge
engine raises no error on any such input (error-freedom is totality here). -/
theorem C9_merge_empty : merge_multiday_events [] = [] := by
  simp [merge_multiday_events, groupEvents]

/-- **C8.** `start_datetime` is `date` combined with `show_time` when present,
else with `doors_time` when present, else with 20:00. -/
theorem C8_start_datetime (e : Event) :
    (∀ t, e.show_time = some t → e.start_datetime = combine e.date t) ∧
    (e.show_time = none → ∀ t, e.doors_time = some t → e.start_datetime = combine e.date t) ∧
    (e.show_time = none → e.doors_time = none → e.start_datetime = combine e.date ⟨20, 0⟩) := by
  refine ⟨fun t ht => ?_, fun hs t ht => ?_, fun hs hd => ?_⟩ <;>
    simp [Event.start_datetime, *]

/-- Concrete instances of C8: a 19:30 `show_time` wins, and an event with no
times starts at 20:00. -/
theorem C8_witness :
    Event.start_datetime
        { title := "Show", date := 20252, venue_name := "Venue", show_time := some ⟨19, 30⟩ } =
      combine 20252 ⟨19, 30⟩ ∧
    Event.start_datetime { title := "Show", date := 20252, venue_name := "Venue" } =
      combine 20252 ⟨20, 0⟩ :=
  ⟨(C8_start_datetime _).1 ⟨19, 30⟩ rfl, (C8_start_datetime _).2.2 rfl rfl⟩

/-- **C3.** `end_datetime` agrees with the spec's formulation (midnight-crossing
rule against the start time-of-day on the last day; default-duration fallback),
and in particular a single-day event with `show_time` 21:00 and `end_time` 01:00
ends on the next calendar day at 01:00. -/
theorem C3_end_datetime :
    (∀ e : Event, e.end_datetime = endDatetimeSpec e) ∧
    (∀ e : Event, e.show_time = some ⟨21, 0⟩ → e.end_time = some ⟨1, 0⟩ → e.end_date = none →
      e.end_datetime = ((e.date : Int) + 1) * 1440 + 60) := by
  constructor
  · intro e
    have h : timeOfDay e.start_datetime = startTimeOfDaySpec e := by
      rw [start_datetime_eq]
      exact timeOfDay_combine _ _
    unfold Event.end_datetime endDatetimeSpec
    cases he : e.end_time <;> simp [he, h, startTimeOfDaySpec]
  · intro e hs het hed
    have hst : startT e = ⟨21, 0⟩ := by simp [startT, hs]
    have h60 : Time.toMin ⟨1, 0⟩ = 60 := by decide
    have h1260 : Time.toMin ⟨21, 0⟩ = 1260 := by decide
    have h : timeOfDay e.start_datetime = (1260 : Int) := by
      rw [start_datetime_eq, timeOfDay_combine, hst, h1260]
      norm_num
    simp only [Event.end_datetime, het, hed, Option.getD_none, h, combine, h60]
    split <;> (push_cast at *; omega)

/-- Concrete instance of C3: date 2025-06-13 (day 20252), show 21:00,
end 01:00, no `end_date` → ends at 2025-06-14T01:00. -/
theorem C3_witness :
    Event.end_datetime
        { title := "Show", date := 20252, venue_name := "Venue",
          show_time := some ⟨21, 0⟩, end_time := some ⟨1, 0⟩ } =
      ((20252 : Int) + 1) * 1440 + 60 :=
  C3_end_datetime.2 _ rfl rfl rfl

/-! ## `covered_day_keys` (C6, C10) -/

theorem daysLoop_length (n : Nat) : ∀ d, (daysLoop d n).length = n := by
  induction n with
  | zero => intro d; rfl
  | succ m ih => intro d; simp [daysLoop, ih]

theorem daysLoop_getElem? (n : Nat) :
    ∀ d i, i < n → (daysLoop d n)[i]? = some (d + i) := by
  induction n with
  | zero => intro d i h; omega
  | succ m ih =>
    intro d i h
    cases i with
    | zero => simp [daysLoop]
    | succ j =>
      have hj : j < m := by omega
      simp only [daysLoop, List.getElem?_cons_succ]
      rw [ih (d + 1) j hj]
      congr 1
      omega

/-- **C6.** For an event whose range is not inverted, `covered_day_keys` yields
exactly one single-day-format key per calendar day from `date` to the last day
inclusive, and for a single-day event the unique key is `normalized_key`. -/
theorem C6_covered_day_keys (e : Event) (last : Nat)
    (hlast : e.end_date.getD e.date = last) (hge : e.date ≤ last) :
    e.covered_day_keys.length = last + 1 - e.date ∧
    (∀ i, i < last + 1 - e.date →
      e.covered_day_keys[i]? =
        some (e.venue_name ++ "|" ++ isoformat (e.date + i) ++ "|" ++ _normalize e.title)) ∧
    (last = e.date → e.covered_day_keys = [e.normalized_key]) := by
  refine ⟨?_, ?_, ?_⟩
  · simp [Event.covered_day_keys, hlast, daysLoop_length]
  · intro i hi
    simp only [Event.covered_day_keys, hlast, List.getElem?_map]
    rw [daysLoop_getElem? _ _ _ hi]
    rfl
  · intro hsingle
    have h1 : last + 1 - e.date = 1 := by omega
    have hloop : daysLoop e.date 1 = [e.date] := rfl
    simp only [Event.covered_day_keys, hlast, h1, hloop, List.map]
    cases hed : e.end_date with
    | none => simp [Event.normalized_key, hed]
    | some ed =>
      have hde : ed = e.date := by
        rw [hed] at hlast
        simp [Option.getD] at hlast
        omega
      simp [Event.normalized_key, hed, hde]

/-- Concrete instance of C6: the 3-day event 2025-06-13..2025-06-15 at "Venue"
yields exactly 3 keys, whose middle key is the 2025-06-14 single-day key. -/
theorem C6_witness :
    (Event.covered_day_keys
        { title := "Fest", date := 20252, end_date := some 20254, venue_name := "Venue" }).length =
      20254 + 1 - 20252 :=
  (C6_covered_day_keys
    { title := "Fest", date := 20252, end_date := some 20254, venue_name := "Venue" }
    20254 rfl (by decide)).1

/-- **C10.** An inverted range (`end_date` set and strictly before `date`),
which construction permits, makes `covered_day_keys` return the empty list:
the day loop counts upward from `date` and runs zero times. -/
theorem C10_inverted_range (e : Event) (ed : Nat)
    (hed : e.end_date = some ed) (hlt : ed < e.date) :
    e.covered_day_keys = [] := by
  have h0 : ed + 1 - e.date = 0 := by omega
  simp [Event.covered_day_keys, hed, h0, daysLoop]

/-- Concrete instance of C10: `date` 2025-06-13, `end_date` 2025-06-11 →
no covered-day keys at all. -/
theorem C10_witness :
    Event.covered_day_keys
        { title := "Fest", date := 20252, end_date := some 20250, venue_name := "Venue" } = [] :=
  C10_inverted_range _ 20250 rfl (by decide)

end ConcertScraper

namespace ConcertScraper

/-! ## Merge-engine lemmas (C1, C2) -/

theorem foldl_addToGroups_const (k : String × String) :
    ∀ (l : List Event) (acc : List Event), (∀ x ∈ l, groupKey x = k) →
      List.foldl addToGroups [(k, acc)] l = [(k, acc ++ l)] := by
  intro l
  induction l with
  | nil => intro acc _; simp
  | cons e rest ih =>
    intro acc h
    have hk : groupKey e = k := h e (by simp)
    have hstep : addToGroups [(k, acc)] e = [(k, acc ++ [e])] := by
      simp [addToGroups, hk]
    simp only [List.foldl_cons, hstep]
    rw [ih (acc ++ [e]) (fun x hx => h x (by simp [hx]))]
    simp

theorem groupEvents_const (e : Event) (rest : List Event)
    (h : ∀ x ∈ rest, groupKey x = groupKey e) :
    groupEvents (e :: rest) = [(groupKey e, e :: rest)] := by
  have h0 : addToGroups [] e = [(groupKey e, [e])] := rfl
  simp only [groupEvents, List.foldl_cons, h0]
  rw [foldl_addToGroups_const (groupKey e) rest [e] h]
  rfl

theorem chain_consec_lt :
    ∀ (l : List Event) (a : Event),
      List.Chain' (fun x y => y.date = x.date + 1) (a :: l) → ∀ b ∈ l, a.date < b.date := by
  intro l
  induction l with
  | nil => intro a _ b hb; simp at hb
  | cons c l' ih =>
    intro a hch b hb
    rw [List.chain'_cons] at hch
    have hac : a.date < c.date := by omega
    rcases List.mem_cons.mp hb with hb | hb
    · subst hb; exact hac
    · exact Nat.lt_trans hac (ih c hch.2 b hb)

theorem chain_consec_pairwise (l : List Event)
    (h : List.Chain' (fun x y => y.date = x.date + 1) l) :
    List.Pairwise (fun a b => dateLe a b = true) l := by
  induction l with
  | nil => exact List.Pairwise.nil
  | cons a l' ih =>
    refine List.Pairwise.cons (fun b hb => ?_) (ih (List.Chain'.tail h))
    have := chain_consec_lt l' a h b hb
    simp [dateLe]
    omega

theorem mergeRunsAux_consec :
    ∀ (rest : List Event) (rs re : Event),
      List.Chain' (fun x y => y.date = x.date + 1) (re :: rest) →
      mergeRunsAux rs re rest = [_flush_run rs (rest.getLastD re)] := by
  intro rest
  induction rest with
  | nil => intro rs re _; rfl
  | cons x rest' ih =>
    intro rs re hch
    rw [List.chain'_cons] at hch
    simp only [mergeRunsAux, if_pos hch.1, List.getLastD_cons]
    exact ih rs x hch.2

theorem chain_consec_getLastD_date :
    ∀ (rest : List Event) (a : Event),
      List.Chain' (fun x y => y.date = x.date + 1) (a :: rest) →
      (rest.getLastD a).date = a.date + rest.length := by
  intro rest
  induction rest with
  | nil => intro a _; rfl
  | cons x rest' ih =>
    intro a hch
    rw [List.chain'_cons] at hch
    rw [List.getLastD_cons, ih x hch.2]
    simp
    omega

/-- **C1.** A group of two or more same-(venue, normalized-title) events on
strictly consecutive dates is merged by `merge_multiday_events` into exactly
one event: a copy of the run's first event with `end_date` the last event's
date and `end_time` the last event's `end_time` (the first event's own
`end_time` being discarded), all other fields coming from the first event. -/
theorem C1_merge_consecutive_run (e l : Event) (rest : List Event)
    (hlast : rest.getLast? = some l)
    (hkeys : ∀ x ∈ rest, x.venue_name = e.venue_name ∧ _normalize x.title = _normalize e.title)
    (hconsec : List.Chain' (fun a b => b.date = a.date + 1) (e :: rest)) :
    merge_multiday_events (e :: rest) =
      [{ e with end_date := some l.date, end_time := l.end_time }] ∧
    ∀ m, merge_multiday_events (e :: rest) = [m] →
      m.title = e.title ∧ m.date = e.date ∧ m.end_date = some l.date ∧
      m.end_time = l.end_time ∧ m.doors_time = e.doors_time ∧ m.show_time = e.show_time ∧
      m.artists = e.artists ∧ m.price = e.price ∧ m.ticket_url = e.ticket_url ∧
      m.description = e.description ∧ m.venue_name = e.venue_name ∧
      m.venue_location = e.venue_location ∧
      m.default_duration_hours = e.default_duration_hours := by
  have hne : rest ≠ [] := by
    intro hnil
    rw [hnil] at hlast
    simp at hlast
  have hkey : ∀ x ∈ rest, groupKey x = groupKey e := by
    intro x hx
    have := hkeys x hx
    simp [groupKey, this.1, this.2]
  have hlastD : rest.getLastD e = l := by
    rw [List.getLastD_eq_getLast?, hlast]
    rfl
  have hdate : l.date = e.date + rest.length := by
    rw [← hlastD]
    exact chain_consec_getLastD_date rest e hconsec
  have hflush : _flush_run e l = { e with end_date := some l.date, end_time := l.end_time } := by
    have hlen : rest.length ≠ 0 := fun h0 => hne (List.eq_nil_of_length_eq_zero h0)
    have : e.date ≠ l.date := by omega
    simp [_flush_run, this]
  have hmain : merge_multiday_events (e :: rest) =
      [{ e with end_date := some l.date, end_time := l.end_time }] := by
    unfold merge_multiday_events
    rw [groupEvents_const e rest hkey]
    have hsorted : (e :: rest).mergeSort dateLe = e :: rest :=
      List.mergeSort_of_sorted (chain_consec_pairwise _ hconsec)
    simp only [List.flatMap_cons, List.flatMap_nil, List.append_nil, hsorted]
    rw [show _merge_consecutive_runs (e :: rest) = mergeRunsAux e e rest from rfl,
      mergeRunsAux_consec rest e e hconsec, hlastD]
    simp [hflush]
  refine ⟨hmain, fun m hm => ?_⟩
  rw [hmain] at hm
  have hmm : m = { e with end_date := some l.date, end_time := l.end_time } := by
    simpa using hm.symm
  subst hmm
  repeat' constructor

/-- Concrete instance of C1: three consecutive "Fest" days at "Venue"
(2025-06-13..15) merge into a copy of the first day's event with the last
day's date as `end_date` and the last day's `end_time`. -/
theorem C1_witness :
    merge_multiday_events
      [{ title := "Fest", date := 20252, venue_name := "Venue",
         show_time := some ⟨18, 0⟩, end_time := some ⟨22, 0⟩ },
       { title := "Fest", date := 20253, venue_name := "Venue",
         show_time := some ⟨14, 0⟩, end_time := some ⟨21, 0⟩ },
       { title := "Fest", date := 20254, venue_name := "Venue",
         end_time := some ⟨23, 0⟩ }] =
      [{ title := "Fest", date := 20252, venue_name := "Venue",
         show_time := some ⟨18, 0⟩, end_date := some 20254, end_time := some ⟨23, 0⟩ }] :=
  (C1_merge_consecutive_run
    { title := "Fest", date := 20252, venue_name := "Venue",
      show_time := some ⟨18, 0⟩, end_time := some ⟨22, 0⟩ }
    { title := "Fest", date := 20254, venue_name := "Venue", end_time := some ⟨23, 0⟩ }
    [{ title := "Fest", date := 20253, venue_name := "Venue",
       show_time := some ⟨14, 0⟩, end_time := some ⟨21, 0⟩ },
     { title := "Fest", date := 20254, venue_name := "Venue", end_time := some ⟨23, 0⟩ }]
    rfl (by intro x hx; fin_cases hx <;> exact ⟨rfl, rfl⟩)
    (by simp [List.chain'_cons])).1

/-- **C2.** In the run-merging scan, an event extends the current run exactly
when its date is the run end's date plus one; any other date flushes the run,
so a group with no consecutive-date adjacency anywhere (weekly cadences
included) passes through `_merge_consecutive_runs` completely unchanged. -/
theorem C2_run_extension :
    (∀ (rs re x : Event) (rest : List Event), x.date = re.date + 1 →
      mergeRunsAux rs re (x :: rest) = mergeRunsAux rs x rest) ∧
    (∀ (rs re x : Event) (rest : List Event), x.date ≠ re.date + 1 →
      mergeRunsAux rs re (x :: rest) = _flush_run rs re :: mergeRunsAux x x rest) ∧
    (∀ es : List Event, List.Chain' (fun a b => b.date ≠ a.date + 1) es →
      _merge_consecutive_runs es = es) := by
  have haux : ∀ (rest : List Event) (a : Event),
      List.Chain' (fun x y => y.date ≠ x.date + 1) (a :: rest) →
      mergeRunsAux a a rest = a :: rest := by
    intro rest
    induction rest with
    | nil => intro a _; simp [mergeRunsAux, _flush_run]
    | cons x rest' ih =>
      intro a hch
      rw [List.chain'_cons] at hch
      simp only [mergeRunsAux, if_neg hch.1]
      rw [ih x hch.2]
      simp [_flush_run]
  refine ⟨fun rs re x rest h => ?_, fun rs re x rest h => ?_, fun es hch => ?_⟩
  · simp [mergeRunsAux, h]
  · simp [mergeRunsAux, h]
  · cases es with
    | nil => rfl
    | cons a rest => exact haux rest a hch

/-- Concrete instance of C2: three weekly "Jazz Night" events
(2025-06-06, 2025-06-13, 2025-06-20) pass through unchanged — three
standalone events, `end_date` unset. -/
theorem C2_witness :
    _merge_consecutive_runs
      [{ title := "Jazz Night", date := 20245, venue_name := "Venue" },
       { title := "Jazz Night", date := 20252, venue_name := "Venue" },
       { title := "Jazz Night", date := 20259, venue_name := "Venue" }] =
      [{ title := "Jazz Night", date := 20245, venue_name := "Venue" },
       { title := "Jazz Night", date := 20252, venue_name := "Venue" },
       { title := "Jazz Night", date := 20259, venue_name := "Venue" }] :=
  C2_run_extension.2.2 _ (by simp [List.chain'_cons])

end ConcertScraper

namespace ConcertScraper

/-! ## Normalizer lemmas (C4, C5) -/

theorem not_space_of_good (c : Char) (h : isGood c = true) : isSpace c = false := by
  simp only [isSpace, Bool.or_eq_false_iff, beq_eq_false_iff_ne, ne_eq]
  and_intros <;> (rintro rfl; exact absurd h (by decide))

theorem ne_space_of_not_space {c : Char} (h : isSpace c = false) : c ≠ ' ' := by
  rintro rfl
  exact absurd h (by decide)

theorem space_of_gs {c : Char} (hgs : isGood c = true ∨ c = ' ') (h : isSpace c = true) :
    c = ' ' := by
  rcases hgs with hg | rfl
  · rw [not_space_of_good c hg] at h
    cases h
  · rfl

theorem not_space_of_gs {c : Char} (hgs : isGood c = true ∨ c = ' ') (hne : c ≠ ' ') :
    isSpace c = false := by
  rcases hgs with hg | rfl
  · exact not_space_of_good c hg
  · exact absurd rfl hne

theorem isKeep_of_gs {c : Char} (h : isGood c = true ∨ c = ' ') : isKeep c = true := by
  rcases h with h | rfl
  · simp [isKeep, h]
  · decide

theorem good_of_keep_not_space {c : Char} (hk : isKeep c = true) (hs : isSpace c = false) :
    isGood c = true := by
  simp only [isKeep, Bool.or_eq_true] at hk
  rcases hk with h | h
  · exact h
  · rw [h] at hs
    cases hs

theorem toLower_fix {c : Char} (h : isGood c = true ∨ c = ' ') : Char.toLower c = c := by
  rcases h with h | rfl
  · have hb : ¬(c.toNat ≥ 65 ∧ c.toNat ≤ 90) := by
      simp only [isGood, Bool.or_eq_true, Bool.and_eq_true, decide_eq_true_eq] at h
      omega
    unfold Char.toLower
    simp [hb]
  · rfl

theorem mem_squeeze1 :
    ∀ (l : List Char) (sp : Bool) (c : Char),
      c ∈ squeeze1 sp l → c = ' ' ∨ (c ∈ l ∧ isSpace c = false) := by
  intro l
  induction l with
  | nil => intro sp c h; simp [squeeze1] at h
  | cons a rest ih =>
    intro sp c h
    by_cases ha : isSpace a = true
    · rcases sp with _ | _
      · simp only [squeeze1, ha, if_pos, Bool.false_eq_true, if_false] at h
        rcases List.mem_cons.mp h with h | h
        · exact Or.inl h
        · rcases ih true c h with h | h
          · exact Or.inl h
          · exact Or.inr ⟨List.mem_cons_of_mem _ h.1, h.2⟩
      · simp only [squeeze1, ha, if_pos, if_true] at h
        rcases ih true c h with h | h
        · exact Or.inl h
        · exact Or.inr ⟨List.mem_cons_of_mem _ h.1, h.2⟩
    · have ha' : isSpace a = false := by
        cases hsp : isSpace a
        · rfl
        · exact absurd hsp ha
      simp only [squeeze1, ha', Bool.false_eq_true, if_false] at h
      rcases List.mem_cons.mp h with h | h
      · subst h
        exact Or.inr ⟨List.mem_cons_self _ _, ha'⟩
      · rcases ih false c h with h | h
        · exact Or.inl h
        · exact Or.inr ⟨List.mem_cons_of_mem _ h.1, h.2⟩

theorem squeeze1_true_head :
    ∀ (l : List Char) (c : Char), (squeeze1 true l).head? = some c → isSpace c = false := by
  intro l
  induction l with
  | nil => intro c h; simp [squeeze1] at h
  | cons a rest ih =>
    intro c h
    by_cases ha : isSpace a = true
    · simp only [squeeze1, ha, if_true] at h
      exact ih c h
    · have ha' : isSpace a = false := by
        cases hsp : isSpace a
        · rfl
        · exact absurd hsp ha
      simp only [squeeze1, ha', Bool.false_eq_true, if_false, List.head?_cons,
        Option.some.injEq] at h
      subst h
      exact ha'

theorem squeeze1_nds :
    ∀ (l : List Char) (sp : Bool),
      List.Chain' (fun a b => ¬(a = ' ' ∧ b = ' ')) (squeeze1 sp l) := by
  intro l
  induction l with
  | nil => intro sp; simp [squeeze1]
  | cons a rest ih =>
    intro sp
    by_cases ha : isSpace a = true
    · rcases sp with _ | _
      · simp only [squeeze1, ha, if_pos, Bool.false_eq_true, if_false]
        refine List.chain'_cons'.mpr ⟨fun y hy => ?_, ih true⟩
        intro ⟨_, hy'⟩
        subst hy'
        exact absurd (squeeze1_true_head rest ' ' hy) (by decide)
      · simpa [squeeze1, ha] using ih true
    · have ha' : isSpace a = false := by
        cases hsp : isSpace a
        · rfl
        · exact absurd hsp ha
      simp only [squeeze1, ha', Bool.false_eq_true, if_false]
      refine List.chain'_cons'.mpr ⟨fun y hy => ?_, ih false⟩
      intro ⟨hc, _⟩
      exact ne_space_of_not_space ha' hc

theorem squeeze1_eq_self :
    ∀ (l : List Char), (∀ c ∈ l, isGood c = true ∨ c = ' ') →
      List.Chain' (fun a b => ¬(a = ' ' ∧ b = ' ')) l →
      squeeze1 false l = l ∧
        ((∀ c, l.head? = some c → isSpace c = false) → squeeze1 true l = l) := by
  intro l
  induction l with
  | nil => intro _ _; exact ⟨rfl, fun _ => rfl⟩
  | cons a rest ih =>
    intro hgs hnds
    have hgsr : ∀ c ∈ rest, isGood c = true ∨ c = ' ' :=
      fun c hc => hgs c (List.mem_cons_of_mem _ hc)
    have hndsr : List.Chain' (fun a b => ¬(a = ' ' ∧ b = ' ')) rest := hnds.tail
    have ihr := ih hgsr hndsr
    constructor
    · by_cases ha : isSpace a = true
      · have hasp : a = ' ' := space_of_gs (hgs a (List.mem_cons_self _ _)) ha
        have hhead : ∀ c, rest.head? = some c → isSpace c = false := by
          intro c hc
          have hrel := hnds.rel_head? hc
          rw [hasp] at hrel
          have hcne : c ≠ ' ' := fun hce => hrel ⟨rfl, hce⟩
          exact not_space_of_gs (hgsr c (List.mem_of_mem_head? hc)) hcne
        simp only [squeeze1, ha, if_pos, Bool.false_eq_true, if_false]
        rw [ihr.2 hhead, hasp]
      · have ha' : isSpace a = false := by
          cases hsp : isSpace a
          · rfl
          · exact absurd hsp ha
        simp only [squeeze1, ha', Bool.false_eq_true, if_false]
        rw [ihr.1]
    · intro hhd
      have ha' : isSpace a = false := hhd a rfl
      simp only [squeeze1, ha', Bool.false_eq_true, if_false]
      rw [ihr.1]

theorem head?_dropWhile_false :
    ∀ (l : List Char) (c : Char), (l.dropWhile isSpace).head? = some c → isSpace c = false := by
  intro l
  induction l with
  | nil => intro c h; simp at h
  | cons a rest ih =>
    intro c h
    by_cases ha : isSpace a = true
    · rw [List.dropWhile_cons_of_pos ha] at h
      exact ih c h
    · rw [List.dropWhile_cons_of_neg ha] at h
      simp only [List.head?_cons, Option.some.injEq] at h
      subst h
      cases hsp : isSpace a
      · rfl
      · exact absurd hsp ha

theorem dropWhile_eq_self_of_head (l : List Char)
    (h : ∀ c, l.head? = some c → isSpace c = false) : l.dropWhile isSpace = l := by
  cases l with
  | nil => rfl
  | cons a rest =>
    have ha := h a rfl
    rw [List.dropWhile_cons_of_neg (by rw [ha]; exact Bool.false_ne_true)]

theorem stripEnds_decomp (l : List Char) :
    l = l.takeWhile isSpace ++
      (stripEnds l ++ (((l.dropWhile isSpace).reverse.takeWhile isSpace)).reverse) := by
  conv_lhs => rw [← List.takeWhile_append_dropWhile (p := isSpace) (l := l)]
  congr 1
  conv_lhs => rw [← List.reverse_reverse (l.dropWhile isSpace)]
  conv_lhs =>
    rw [← List.takeWhile_append_dropWhile (p := isSpace) (l := (l.dropWhile isSpace).reverse)]
  rw [List.reverse_append]
  rfl

theorem mem_stripEnds (l : List Char) (c : Char) (h : c ∈ stripEnds l) : c ∈ l := by
  have hd := stripEnds_decomp l
  rw [hd]
  simp [h]

theorem nds_stripEnds (l : List Char)
    (h : List.Chain' (fun a b => ¬(a = ' ' ∧ b = ' ')) l) :
    List.Chain' (fun a b => ¬(a = ' ' ∧ b = ' ')) (stripEnds l) := by
  rw [stripEnds_decomp l] at h
  exact ((List.chain'_append.mp (List.chain'_append.mp h).2.1)).1

theorem stripEnds_head (l : List Char) (c : Char)
    (h : (stripEnds l).head? = some c) : isSpace c = false := by
  apply head?_dropWhile_false l c
  have hd : l.dropWhile isSpace =
      stripEnds l ++ ((l.dropWhile isSpace).reverse.takeWhile isSpace).reverse := by
    have := stripEnds_decomp l
    conv_lhs at this => rw [← List.takeWhile_append_dropWhile (p := isSpace) (l := l)]
    exact List.append_cancel_left this
  rw [hd]
  cases hse : stripEnds l with
  | nil => rw [hse] at h; simp at h
  | cons x xs =>
    rw [hse] at h
    simp only [List.head?_cons, Option.some.injEq] at h
    subst h
    rfl

theorem stripEnds_last (l : List Char) (c : Char)
    (h : (stripEnds l).getLast? = some c) : isSpace c = false := by
  unfold stripEnds at h
  rw [List.getLast?_reverse] at h
  exact head?_dropWhile_false (l.dropWhile isSpace).reverse c h

theorem stripEnds_eq_self (l : List Char)
    (hh : ∀ c, l.head? = some c → isSpace c = false)
    (hl : ∀ c, l.getLast? = some c → isSpace c = false) : stripEnds l = l := by
  unfold stripEnds
  rw [dropWhile_eq_self_of_head l hh]
  rw [dropWhile_eq_self_of_head l.reverse (by
    intro c hc
    rw [List.head?_reverse] at hc
    exact hl c hc)]
  exact List.reverse_reverse l

end ConcertScraper

namespace ConcertScraper

/-- The shape of any `_normalize` output: only lowercase alphanumerics and
single interior spaces, with no whitespace at either end. -/
def Canon (l : List Char) : Prop :=
  (∀ c ∈ l, isGood c = true ∨ c = ' ') ∧
  List.Chain' (fun a b => ¬(a = ' ' ∧ b = ' ')) l ∧
  (∀ c, l.head? = some c → isSpace c = false) ∧
  (∀ c, l.getLast? = some c → isSpace c = false)

theorem normalize_canon (s : String) : Canon (_normalize s).data := by
  have hdata : (_normalize s).data =
      stripEnds (squeeze1 false
        (List.filter isKeep (stripThe (stripEnds (s.data.map Char.toLower))))) := rfl
  set u₃ := List.filter isKeep (stripThe (stripEnds (s.data.map Char.toLower))) with hu₃
  have hgs : ∀ c ∈ squeeze1 false u₃, isGood c = true ∨ c = ' ' := by
    intro c hc
    rcases mem_squeeze1 u₃ false c hc with h | ⟨hmem, hns⟩
    · exact Or.inr h
    · have hk : isKeep c = true := (List.mem_filter.mp hmem).2
      exact Or.inl (good_of_keep_not_space hk hns)
  rw [hdata]
  refine ⟨?_, ?_, ?_, ?_⟩
  · intro c hc
    exact hgs c (mem_stripEnds _ c hc)
  · exact nds_stripEnds _ (squeeze1_nds u₃ false)
  · intro c hc
    exact stripEnds_head _ c hc
  · intro c hc
    exact stripEnds_last _ c hc

theorem mem_stripThe (l : List Char) (c : Char) (h : c ∈ stripThe l) : c ∈ l := by
  unfold stripThe at h
  split at h
  · split at h
    · have h2 := (List.dropWhile_sublist isSpace).subset h
      exact List.mem_cons_of_mem _ (List.mem_cons_of_mem _ (List.mem_cons_of_mem _ h2))
    · exact h
  · exact h

theorem stripThe_canon (l : List Char) (h : Canon l) : Canon (stripThe l) := by
  obtain ⟨hgs, hnds, hhd, hlast⟩ := h
  unfold stripThe
  split
  case h_2 => exact ⟨hgs, hnds, hhd, hlast⟩
  case h_1 c₀ rest =>
    by_cases hsp : isSpace c₀ = true
    · rw [if_pos hsp]
      rw [List.dropWhile_cons_of_pos hsp]
      set r := rest.dropWhile isSpace with hr
      have hrest_decomp : rest = rest.takeWhile isSpace ++ r :=
        (List.takeWhile_append_dropWhile isSpace rest).symm
      have hmemr : ∀ c ∈ r, c ∈ 't' :: 'h' :: 'e' :: c₀ :: rest := by
        intro c hc
        have hcr : c ∈ rest := (List.dropWhile_sublist isSpace).subset hc
        simp [hcr]
      have hndsrest : List.Chain' (fun a b => ¬(a = ' ' ∧ b = ' ')) rest :=
        hnds.tail.tail.tail.tail
      refine ⟨?_, ?_, ?_, ?_⟩
      · intro c hc
        exact hgs c (hmemr c hc)
      · rw [hrest_decomp] at hndsrest
        exact (List.chain'_append.mp hndsrest).2.1
      · intro c hc
        exact head?_dropWhile_false rest c hc
      · intro c hc
        have hl2 : 't' :: 'h' :: 'e' :: c₀ :: rest =
            ('t' :: 'h' :: 'e' :: c₀ :: rest.takeWhile isSpace) ++ r := by
          conv_lhs => rw [hrest_decomp]
          simp
        have hlg : ('t' :: 'h' :: 'e' :: c₀ :: rest).getLast? = some c := by
          rw [hl2, List.getLast?_append, hc]
          rfl
        exact hlast c hlg
    · rw [if_neg hsp]
      exact ⟨hgs, hnds, hhd, hlast⟩

theorem map_toLower_eq_self (l : List Char) (h : ∀ c ∈ l, isGood c = true ∨ c = ' ') :
    l.map Char.toLower = l := by
  induction l with
  | nil => rfl
  | cons a rest ih =>
    rw [List.map_cons, toLower_fix (h a (List.mem_cons_self _ _)),
      ih (fun c hc => h c (List.mem_cons_of_mem _ hc))]

theorem normalize_of_canon (t : List Char) (h : Canon t) :
    _normalize ⟨t⟩ = ⟨stripThe t⟩ := by
  obtain ⟨hgs, hnds, hhd, hlast⟩ := h
  have hc' := stripThe_canon t ⟨hgs, hnds, hhd, hlast⟩
  obtain ⟨hgs', hnds', hhd', hlast'⟩ := hc'
  show (⟨stripEnds (squeeze1 false
      (List.filter isKeep (stripThe (stripEnds (t.map Char.toLower)))))⟩ : String) = _
  rw [map_toLower_eq_self t hgs, stripEnds_eq_self t hhd hlast]
  rw [List.filter_eq_self.mpr (fun c hc => isKeep_of_gs (hgs' c hc))]
  rw [(squeeze1_eq_self (stripThe t) hgs' hnds').1]
  rw [stripEnds_eq_self (stripThe t) hhd' hlast']

/-- **C4 (counterexample).** The normalizer is not idempotent: normalizing
`"the the x"` yields `"the x"`, which normalizes again to `"x"` (the anchored
leading-`the` removal fires once per application). -/
theorem C4_counterexample : _normalize (_normalize "the the x") ≠ _normalize "the the x" := by
  decide

/-- **C4 (amended).** A second application of `_normalize` performs exactly one
more anchored leading-`the ` strip on the already-normalized string (all other
passes are the identity there); hence `_normalize` is idempotent at `s` exactly
when `_normalize s` does not begin with the word `the` followed by a space. -/
theorem C4_normalize_normalize :
    (∀ s : String, _normalize (_normalize s) = ⟨stripThe (_normalize s).data⟩) ∧
    (∀ s : String, stripThe (_normalize s).data = (_normalize s).data →
      _normalize (_normalize s) = _normalize s) := by
  have h1 : ∀ s : String, _normalize (_normalize s) = ⟨stripThe (_normalize s).data⟩ :=
    fun s => normalize_of_canon (_normalize s).data (normalize_canon s)
  refine ⟨h1, fun s hfix => ?_⟩
  rw [h1 s, hfix]

/-- Concrete instance of C4 (amended): `"black keys"` is already normalized and
free of a leading `the `, so `_normalize` is idempotent on it. -/
theorem C4_witness :
    stripThe (_normalize "black keys").data = (_normalize "black keys").data ∧
    _normalize (_normalize "black keys") = _normalize "black keys" :=
  ⟨by decide, C4_normalize_normalize.2 "black keys" (by decide)⟩

end ConcertScraper

namespace ConcertScraper

/-! ## Substring `".."` occurrence (C5) -/

/-- Whether the character list contains two consecutive dots (the substring
`".."` of a key's date-range portion). -/
def hasDD : List Char → Bool
  | a :: b :: rest => (a == '.' && b == '.') || hasDD (b :: rest)
  | _ => false

theorem hasDD_append : ∀ (x y : List Char), hasDD (x ++ '.' :: '.' :: y) = true := by
  intro x
  induction x with
  | nil => intro y; simp [hasDD]
  | cons a x' ih =>
    intro y
    cases x' with
    | nil => simp [hasDD, ih]
    | cons b x'' =>
      have h := ih y
      simp only [List.cons_append] at h ⊢
      rw [hasDD, h]
      simp

theorem hasDD_of_no_dot : ∀ (y : List Char), (∀ c ∈ y, c ≠ '.') → hasDD y = false := by
  intro y
  induction y with
  | nil => intro _; rfl
  | cons a y' ih =>
    intro h
    cases y' with
    | nil => rfl
    | cons b y'' =>
      rw [hasDD]
      have hb : (b == '.') = false := by
        have := h b (by simp)
        simp [this]
      simp only [hb, Bool.and_false, Bool.false_or]
      exact ih (fun c hc => h c (List.mem_cons_of_mem _ hc))

theorem hasDD_append_no_dot :
    ∀ (x y : List Char), hasDD x = false → (∀ c ∈ y, c ≠ '.') → hasDD (x ++ y) = false := by
  intro x
  induction x with
  | nil => intro y _ hy; exact hasDD_of_no_dot y hy
  | cons a x' ih =>
    intro y hx hy
    cases x' with
    | nil =>
      cases y with
      | nil => rfl
      | cons b y' =>
        simp only [List.cons_append, List.nil_append]
        rw [hasDD]
        have hb : (b == '.') = false := by
          have := hy b (by simp)
          simp [this]
        simp only [hb, Bool.and_false, Bool.false_or]
        exact hasDD_of_no_dot (b :: y') hy
    | cons b x'' =>
      rw [hasDD] at hx
      simp only [Bool.or_eq_false_iff] at hx
      have hih := ih y hx.2 hy
      rw [List.cons_append] at hih
      simp only [List.cons_append]
      rw [hasDD, hx.1, hih]
      rfl

theorem digitCh_ne_dot (n : Nat) : digitCh n ≠ '.' := by
  unfold digitCh
  split <;> decide

theorem isoformat_no_dot (d : Nat) : ∀ c ∈ (isoformat d).data, c ≠ '.' := by
  intro c hc
  simp only [isoformat, pad4, pad2, List.cons_append, List.nil_append, List.mem_cons,
    List.not_mem_nil, or_false] at hc
  rcases hc with rfl | rfl | rfl | rfl | rfl | rfl | rfl | rfl | rfl | rfl <;>
    first
    | exact digitCh_ne_dot _
    | decide

theorem normalize_no_dot (s : String) : ∀ c ∈ (_normalize s).data, c ≠ '.' := by
  intro c hc
  rcases (normalize_canon s).1 c hc with hg | rfl
  · rintro rfl
    exact absurd hg (by decide)
  · decide

/-- **C5 (counterexample).** A venue name may itself contain `".."`: the
single-day event below has `normalized_key` `"A..B|2025-06-13|show"`, which
does contain `".."`, refuting the claim's "single-day key contains no `..`"
consequence. -/
theorem C5_counterexample :
    hasDD (Event.normalized_key
      { title := "Show", date := 20252, venue_name := "A..B" }).data = true ∧
    (Event.normalized_key { title := "Show", date := 20252, venue_name := "A..B" }) =
      "A..B|2025-06-13|show" := by
  constructor
  · decide
  · decide

/-- **C5 (amended).** `normalized_key` is
`"{venue_name}|{date_portion}|{normalized_title}"` with `date_portion` equal to
`date.isoformat()` when `end_date` is unset or equals `date`, and
`"{date}..{end_date}"` otherwise; a multi-day key always contains `".."`, and a
single-day key contains no `".."` provided the venue name itself contains no
`".."` (the date and normalized-title portions can never contribute a dot). -/
theorem C5_normalized_key (e : Event) :
    (∀ ed, e.end_date = some ed → ed ≠ e.date →
      e.normalized_key =
        e.venue_name ++ "|" ++ isoformat e.date ++ ".." ++ isoformat ed ++ "|" ++
          _normalize e.title) ∧
    (e.end_date = none ∨ e.end_date = some e.date →
      e.normalized_key = e.venue_name ++ "|" ++ isoformat e.date ++ "|" ++ _normalize e.title) ∧
    (∀ ed, e.end_date = some ed → ed ≠ e.date → hasDD e.normalized_key.data = true) ∧
    ((e.end_date = none ∨ e.end_date = some e.date) → hasDD e.venue_name.data = false →
      hasDD e.normalized_key.data = false) := by
  have hsingle : e.end_date = none ∨ e.end_date = some e.date →
      e.normalized_key = e.venue_name ++ "|" ++ isoformat e.date ++ "|" ++ _normalize e.title := by
    rintro (hed | hed) <;> simp [Event.normalized_key, hed, String.append_assoc]
  have hmulti : ∀ ed, e.end_date = some ed → ed ≠ e.date →
      e.normalized_key =
        e.venue_name ++ "|" ++ isoformat e.date ++ ".." ++ isoformat ed ++ "|" ++
          _normalize e.title := by
    intro ed hed hne
    simp [Event.normalized_key, hed, hne, String.append_assoc]
  refine ⟨hmulti, hsingle, ?_, ?_⟩
  · intro ed hed hne
    rw [hmulti ed hed hne]
    have hdata : (e.venue_name ++ "|" ++ isoformat e.date ++ ".." ++ isoformat ed ++ "|" ++
        _normalize e.title).data =
        (e.venue_name.data ++ '|' :: (isoformat e.date).data) ++
          '.' :: '.' :: ((isoformat ed).data ++ '|' :: (_normalize e.title).data) := by
      show _ = _
      simp
    rw [hdata]
    exact hasDD_append _ _
  · intro hed hvenue
    rw [hsingle hed]
    have hdata : (e.venue_name ++ "|" ++ isoformat e.date ++ "|" ++ _normalize e.title).data =
        e.venue_name.data ++ ('|' :: (isoformat e.date).data ++ '|' :: (_normalize e.title).data) := by
      show _ = _
      simp
    rw [hdata]
    apply hasDD_append_no_dot _ _ hvenue
    intro c hc
    rcases List.mem_cons.mp hc with rfl | hc2
    · decide
    rcases List.mem_append.mp hc2 with h2 | h2
    · exact isoformat_no_dot e.date c h2
    rcases List.mem_cons.mp h2 with rfl | h3
    · decide
    · exact normalize_no_dot e.title c h3

/-- Concrete instances of C5 (amended): the repository's own test values — a
multi-day key `"Venue|2025-06-13..2025-06-15|fest"` contains `".."`, a
single-day key `"Venue|2025-06-15|show"` does not. -/
theorem C5_witness :
    hasDD (Event.normalized_key
      { title := "Fest", date := 20252, end_date := some 20254, venue_name := "Venue" }).data =
        true ∧
    hasDD (Event.normalized_key
      { title := "Show", date := 20254, venue_name := "Venue" }).data = false :=
  ⟨(C5_normalized_key _).2.2.1 20254 rfl (by decide),
   (C5_normalized_key _).2.2.2 (Or.inl rfl) (by decide)⟩

end ConcertScraper

namespace ConcertScraper

/-! ## Construction validation (C7) -/

/-- A required field validates iff a parsed value is present. -/
def fieldOkR : Field α → Bool
  | .val _ => true
  | _ => false

/-- An optional/defaulted field validates iff it is not present-but-unparseable. -/
def fieldOkO : Field α → Bool
  | .malformed => false
  | _ => true

/-- Success of an `Except`-valued computation. -/
def exceptOk : Except String α → Bool
  | .ok _ => true
  | .error _ => false

theorem isSuccess_eq_exceptOk (x : Except String Event) : isSuccess x = exceptOk x := by
  cases x <;> rfl

theorem exceptOk_bind_req (f : Field α) (k : α → Except String β) (c : Bool)
    (hk : ∀ a, exceptOk (k a) = c) :
    exceptOk (reqField f >>= k) = (fieldOkR f && c) := by
  cases f with
  | missing => rfl
  | malformed => rfl
  | val a =>
    show exceptOk (k a) = (true && c)
    rw [hk a]
    simp

theorem exceptOk_bind_opt (f : Field α) (k : Option α → Except String β) (c : Bool)
    (hk : ∀ o, exceptOk (k o) = c) :
    exceptOk (optField f >>= k) = (fieldOkO f && c) := by
  cases f with
  | missing =>
    show exceptOk (k none) = (true && c)
    rw [hk none]
    simp
  | malformed => rfl
  | val a =>
    show exceptOk (k (some a)) = (true && c)
    rw [hk (some a)]
    simp

theorem exceptOk_bind_def (d₀ : α) (f : Field α) (k : α → Except String β) (c : Bool)
    (hk : ∀ a, exceptOk (k a) = c) :
    exceptOk (defField d₀ f >>= k) = (fieldOkO f && c) := by
  cases f with
  | missing =>
    show exceptOk (k d₀) = (true && c)
    rw [hk d₀]
    simp
  | malformed => rfl
  | val a =>
    show exceptOk (k a) = (true && c)
    rw [hk a]
    simp

theorem mkEvent_isSuccess (r : RawEvent) :
    isSuccess (mkEvent r) =
      (fieldOkR r.title && (fieldOkR r.date && (fieldOkO r.end_date && (fieldOkO r.doors_time &&
        (fieldOkO r.show_time && (fieldOkO r.end_time && (fieldOkO r.artists && (fieldOkO r.price &&
        (fieldOkO r.ticket_url && (fieldOkO r.description && (fieldOkR r.venue_name &&
        (fieldOkO r.venue_location && (fieldOkO r.default_duration_hours &&
          true))))))))))))) := by
  rw [isSuccess_eq_exceptOk]
  refine exceptOk_bind_req _ _ _ (fun t => ?_)
  refine exceptOk_bind_req _ _ _ (fun d => ?_)
  refine exceptOk_bind_opt _ _ _ (fun ed => ?_)
  refine exceptOk_bind_opt _ _ _ (fun dt => ?_)
  refine exceptOk_bind_opt _ _ _ (fun st => ?_)
  refine exceptOk_bind_opt _ _ _ (fun et => ?_)
  refine exceptOk_bind_def _ _ _ _ (fun ar => ?_)
  refine exceptOk_bind_opt _ _ _ (fun pr => ?_)
  refine exceptOk_bind_opt _ _ _ (fun tu => ?_)
  refine exceptOk_bind_opt _ _ _ (fun de => ?_)
  refine exceptOk_bind_req _ _ _ (fun vn => ?_)
  refine exceptOk_bind_opt _ _ _ (fun vl => ?_)
  refine exceptOk_bind_def _ _ _ _ (fun dh => ?_)
  rfl

/-- **C7 (counterexample).** Event construction accepts an *empty* `title`
string (the `Event` class declares no emptiness constraint), so the claim that
construction fails when `title` is empty is false. -/
theorem C7_counterexample :
    mkEvent { title := .val "", date := .val 20252, venue_name := .val "Venue" } =
      .ok { title := "", date := 20252, venue_name := "Venue" } := rfl

/-- **C7 (amended).** Construction fails with a `ValidationError` when `title`,
`venue_name` or `date` is *missing*, or when any provided date/time field is not
parseable into its annotated type; empty strings are accepted, and
`end_date >= date` is not enforced (an inverted range constructs fine). -/
theorem C7_mkEvent :
    (∀ r : RawEvent, r.title = .missing → isSuccess (mkEvent r) = false) ∧
    (∀ r : RawEvent, r.venue_name = .missing → isSuccess (mkEvent r) = false) ∧
    (∀ r : RawEvent, r.date = .missing → isSuccess (mkEvent r) = false) ∧
    (∀ r : RawEvent, r.date = .malformed → isSuccess (mkEvent r) = false) ∧
    (∀ r : RawEvent, r.end_date = .malformed → isSuccess (mkEvent r) = false) ∧
    (∀ r : RawEvent, r.doors_time = .malformed → isSuccess (mkEvent r) = false) ∧
    (∀ r : RawEvent, r.show_time = .malformed → isSuccess (mkEvent r) = false) ∧
    (∀ r : RawEvent, r.end_time = .malformed → isSuccess (mkEvent r) = false) ∧
    (∀ (t v : String) (d ed : Nat), ed < d →
      mkEvent { title := .val t, date := .val d, end_date := .val ed, venue_name := .val v } =
        .ok { title := t, date := d, end_date := some ed, venue_name := v }) := by
  refine ⟨?_, ?_, ?_, ?_, ?_, ?_, ?_, ?_, ?_⟩ <;>
    first
    | (intro r h; rw [mkEvent_isSuccess, h]; simp [fieldOkR, fieldOkO])
    | (intro t v d ed _; rfl)

/-- Concrete instances of C7 (amended): a raw record missing its `title` fails
validation, and an inverted range (`end_date` 2025-06-11 before `date`
2025-06-13) constructs successfully. -/
theorem C7_witness :
    isSuccess (mkEvent { date := .val 20252, venue_name := .val "Venue" }) = false ∧
    (20250 < 20252 ∧
      mkEvent { title := .val "Fest", date := .val 20252, end_date := .val 20250,
                venue_name := .val "Venue" } =
        .ok { title := "Fest", date := 20252, end_date := some 20250, venue_name := "Venue" }) :=
  ⟨C7_mkEvent.1 _ rfl,
   by decide,
   C7_mkEvent.2.2.2.2.2.2.2.2 "Fest" "Venue" 20252 20250 (by decide)⟩

end ConcertScraper
